import Mathlib

/-!
# Verification of the `totp` repository (src/totp.py, src/uri.py)

A shallow embedding of the Python 2 source into Lean 4.  Bytes are `Nat`
values (0–255), byte strings are `List Nat`, Python text strings are
`List Char`.  Fallible Python code (exceptions such as `ZeroDivisionError`
and `struct.error`) is modelled with `Option`.  Python 2 `/` on integers is
floor division, modelled with `Int.fdiv`.
-/

namespace Totp

/-! ## Base-`B` positional encoding helpers

`struct.pack('>Q', n)` / `struct.unpack('>I', s)` are big-endian base-256
conversions; Base32 is big-endian base-32 conversion on 40-bit groups.
-/

/-- Little-endian digits of `n` in base `B`, exactly `k` digits. -/
def leDigits (B : Nat) : Nat → Nat → List Nat
  | 0, _ => []
  | k + 1, n => n % B :: leDigits B k (n / B)

/-- Big-endian digits of `n` in base `B`, exactly `k` digits. -/
def beDigits (B k n : Nat) : List Nat :=
  (leDigits B k n).reverse

/-- Value of a big-endian digit list in base `B`. -/
def ofBE (B : Nat) (l : List Nat) : Nat :=
  l.foldl (fun a d => a * B + d) 0

/-- Model of `struct.pack('>Q', n)` and friends: `k` bytes, big-endian. -/
def beBytes (k n : Nat) : List Nat := beDigits 256 k n

/-- Value of a big-endian byte string (`struct.unpack('>I', s)`). -/
def beVal (l : List Nat) : Nat := ofBE 256 l

/-! ## SHA-1 (`hashlib.sha1`), the default hash function of the source -/

/-- Rotate a 32-bit word left by `k` bits. -/
def rotl32 (k n : Nat) : Nat :=
  ((n <<< k) ||| (n >>> (32 - k))) % 2 ^ 32

/-- The SHA-1 round function `f_t(b,c,d)`. -/
def sha1F (t b c d : Nat) : Nat :=
  if t < 20 then (b &&& c) ||| ((0xFFFFFFFF ^^^ b) &&& d)
  else if t < 40 then b ^^^ c ^^^ d
  else if t < 60 then (b &&& c) ||| (b &&& d) ||| (c &&& d)
  else b ^^^ c ^^^ d

/-- The SHA-1 round constant `K_t`. -/
def sha1K (t : Nat) : Nat :=
  if t < 20 then 0x5A827999
  else if t < 40 then 0x6ED9EBA1
  else if t < 60 then 0x8F1BBCDC
  else 0xCA62C1D6

/-- Extend the (reversed) message schedule by `fuel` further words:
`W_t = rotl1 (W_(t-3) xor W_(t-8) xor W_(t-14) xor W_(t-16))`. -/
def sha1Extend : Nat → List Nat → List Nat
  | 0, ws => ws
  | fuel + 1, ws =>
      sha1Extend fuel
        (rotl32 1 ((ws.getD 2 0) ^^^ (ws.getD 7 0) ^^^ (ws.getD 13 0) ^^^ (ws.getD 15 0)) :: ws)

/-- One SHA-1 round on the state `(a,b,c,d,e)` with round index `t` and word `w`. -/
def sha1Round (st : Nat × Nat × Nat × Nat × Nat) (tw : Nat × Nat) :
    Nat × Nat × Nat × Nat × Nat :=
  match st, tw with
  | (a, b, c, d, e), (t, w) =>
    ((rotl32 5 a + sha1F t b c d + e + sha1K t + w) % 2 ^ 32, a, rotl32 30 b, c, d)

/-- SHA-1 compression of one 64-byte block into the hash state. -/
def sha1Compress (h : Nat × Nat × Nat × Nat × Nat) (block : List Nat) :
    Nat × Nat × Nat × Nat × Nat :=
  let w16 := (List.range 16).map (fun i => beVal ((block.drop (4 * i)).take 4))
  let ws := (sha1Extend 64 w16.reverse).reverse
  match h, ((List.range 80).zip ws).foldl sha1Round h with
  | (h0, h1, h2, h3, h4), (a, b, c, d, e) =>
    ((h0 + a) % 2 ^ 32, (h1 + b) % 2 ^ 32, (h2 + c) % 2 ^ 32,
     (h3 + d) % 2 ^ 32, (h4 + e) % 2 ^ 32)

/-- Merkle–Damgård padding: `0x80`, zeros to 56 mod 64, 8-byte big-endian bit length. -/
def sha1Pad (msg : List Nat) : List Nat :=
  msg ++ 0x80 :: List.replicate ((119 - msg.length % 64) % 64) 0
      ++ beBytes 8 (8 * msg.length)

/-- Split a sequence into chunks of `k` elements (fuel-driven structural recursion). -/
def chunksF {α : Type} (k : Nat) : Nat → List α → List (List α)
  | 0, _ => []
  | _, [] => []
  | fuel + 1, l => l.take k :: chunksF k fuel (l.drop k)

/-- Serialize the five 32-bit state words of SHA-1 as 20 bytes, big-endian. -/
def sha1Out (h : Nat × Nat × Nat × Nat × Nat) : List Nat :=
  beBytes 4 h.1 ++ beBytes 4 h.2.1 ++ beBytes 4 h.2.2.1 ++
    beBytes 4 h.2.2.2.1 ++ beBytes 4 h.2.2.2.2

/-- SHA-1 digest of a byte string: 20 bytes. -/
def sha1 (msg : List Nat) : List Nat :=
  let padded := sha1Pad msg
  sha1Out ((chunksF 64 padded.length padded).foldl sha1Compress
      (0x67452301, 0xEFCDAB89, 0x98BADCFE, 0x10325476, 0xC3D2E1F0))

/-! ## HMAC (`hmac.new(key, message, hashfunc).digest()`), block size 64 -/

/-- HMAC-SHA1 over byte-string key and message (`hmac.new` with `hashlib.sha1`). -/
def hmacSha1 (key msg : List Nat) : List Nat :=
  let k1 := if 64 < key.length then sha1 key else key
  let k2 := k1 ++ List.replicate (64 - k1.length) 0
  sha1 ((k2.map (fun b => b ^^^ 0x5c)) ++ sha1 ((k2.map (fun b => b ^^^ 0x36)) ++ msg))

/-! ## src/totp.py -/

def DEFAULT_TIME_STEP : Int := 30
def DEFAULT_EPOCH : Int := 0
def DEFAULT_DIGITS : Nat := 6

/-- The function `time_steps(current, epoch, step)`: `(long(current) - int(epoch)) / int(step)`.
Python 2 `/` on integers is floor division (`Int.fdiv`); `step == 0` raises
`ZeroDivisionError`, modelled as `none`.  The `current is None` branch reads the
wall clock and is outside the embedding: `current` is always supplied here. -/
def time_steps (current epoch step : Int) : Option Int :=
  if step = 0 then none else some (Int.fdiv (current - epoch) step)

/-- The function `hmac_digest(key, message)` for an integer `message` with the default
`hashlib.sha1`: `struct.pack('>Q', message)` encodes the message as 8 bytes,
big-endian, unsigned, raising `struct.error` (here `none`) when the value is
negative or does not fit in 64 bits; then `hmac.new(key, message, sha1).digest()`. -/
def hmac_digest (key : List Nat) (message : Int) : Option (List Nat) :=
  if 0 ≤ message ∧ message < 2 ^ 64 then
    some (hmacSha1 key (beBytes 8 message.toNat))
  else none

/-- The function `truncate(digest, digits)`: RFC 4226 dynamic truncation.
`digest[-1]` raises `IndexError` on an empty string (`getLast? = none`);
`struct.unpack('>I', codestr)` raises `struct.error` unless the slice
`digest[offset:offset+4]` has exactly 4 bytes.  `code & ~(1 << 31)` on a
32-bit value is `code &&& 0x7FFFFFFF`. -/
def truncate (digest : List Nat) (digits : Nat) : Option Nat :=
  match digest.getLast? with
  | none => none
  | some byte =>
    let offset := byte &&& 15
    let codestr := (digest.drop offset).take 4
    if codestr.length = 4 then
      some ((beVal codestr &&& 0x7FFFFFFF) % 10 ^ digits)
    else none

/-- The function `hotp(key, counter)` with the default `hashlib.sha1`:
`truncate(hmac_digest(key, counter, hashfunc))`, with `truncate`'s `digits`
left at its default of 6. -/
def hotp (key : List Nat) (counter : Int) : Option Nat :=
  (hmac_digest key counter).bind (fun d => truncate d DEFAULT_DIGITS)

/-- The function `totp(key, current, epoch, step)`: `hotp(key, time_steps(current, epoch, step))`. -/
def totp (key : List Nat) (current epoch step : Int) : Option Nat :=
  (time_steps current epoch step).bind (fun t => hotp key t)

/-- The RFC 4226 Appendix D secret: the ASCII bytes of `"12345678901234567890"`. -/
def rfc4226Key : List Nat := "12345678901234567890".data.map Char.toNat

/-! ## src/uri.py and its collaborators

`base64.b32encode`, `urllib.quote`, `urllib.urlencode` (Python 2), modelled on
`List Char` for text and `List Nat` for bytes.
-/

/-- The RFC 4648 Base32 alphabet, as used by `base64.b32encode`. -/
def b32alphabet : List Char :=
  ['A', 'B', 'C', 'D', 'E', 'F', 'G', 'H', 'I', 'J', 'K', 'L', 'M',
   'N', 'O', 'P', 'Q', 'R', 'S', 'T', 'U', 'V', 'W', 'X', 'Y', 'Z',
   '2', '3', '4', '5', '6', '7']

/-- Character for a 5-bit group. -/
def b32char (d : Nat) : Char := b32alphabet.getD d '?'

/-- Five-bit group value of a Base32 character (`base64._b32rev`); unknown characters
map to 0 (they never occur in the inputs considered here). -/
def b32charVal (c : Char) : Nat :=
  ((b32alphabet.zip (List.range 32)).lookup c).getD 0

/-- Number of data characters kept in the final 8-character quantum when the
final group has `r` bytes (1–5): `base64.b32encode` replaces the rest by `=`. -/
def b32KeepChars : Nat → Nat
  | 1 => 2
  | 2 => 4
  | 3 => 5
  | 4 => 7
  | _ => 8

/-- Number of bytes kept from the final 5-byte group by `base64.b32decode`
when the final quantum carries `p` padding characters. -/
def b32KeepBytes : Nat → Nat
  | 0 => 5
  | 1 => 4
  | 3 => 3
  | 4 => 2
  | 6 => 1
  | _ => 0

/-- Encode one group of 1–5 bytes into an 8-character Base32 quantum:
zero-pad the group to 5 bytes, emit the 8 big-endian 5-bit digits of its
40-bit value, then replace the trailing characters that carry no data by `=`. -/
def b32encodeChunk (c : List Nat) : List Char :=
  let n := ofBE 256 (c ++ List.replicate (5 - c.length) 0)
  let keep := b32KeepChars c.length
  ((beDigits 32 8 n).map b32char).take keep ++ List.replicate (8 - keep) '='

/-- Model of `base64.b32encode`: encode the bytes in 5-byte groups, the last group
padded per RFC 4648. -/
def b32encode (key : List Nat) : List Char :=
  ((chunksF 5 key.length key).map b32encodeChunk).flatten

/-- Decode one 8-character Base32 quantum (`base64.b32decode`): drop the
padding characters (padding occurs only at the end of a quantum), read the
data characters as big-endian 5-bit digits of a 40-bit value, and keep the
bytes the padding says are data. -/
def b32decodeChunk (g : List Char) : List Nat :=
  let dataChars := g.filter (fun c => c ≠ '=')
  let p := 8 - dataChars.length
  let n := ofBE 32 (dataChars.map b32charVal ++ List.replicate p 0)
  (beDigits 256 5 n).take (b32KeepBytes p)

/-- Model of `base64.b32decode` (RFC 4648, padded): decode each 8-character quantum. -/
def b32decode (s : List Char) : List Nat :=
  ((chunksF 8 s.length s).map b32decodeChunk).flatten

/-- The set `urllib.always_safe` (Python 2): ASCII letters, digits, `_`, `.`, `-`. -/
def alwaysSafeChar (c : Char) : Bool :=
  c.isAlphanum || c = '_' || c = '.' || c = '-'

/-- Upper-case hexadecimal digit, as `urllib.quote`'s `'%%%02X'` format emits. -/
def hexUpper (n : Nat) : Char :=
  ['0', '1', '2', '3', '4', '5', '6', '7', '8', '9',
   'A', 'B', 'C', 'D', 'E', 'F'].getD n '0'

/-- Percent-encoding of one byte-character. -/
def quoteChar (c : Char) : List Char :=
  ['%', hexUpper (c.toNat / 16), hexUpper (c.toNat % 16)]

/-- Model of `urllib.quote(s, safe)`: keep always-safe and `safe` characters,
percent-encode the rest. -/
def pyquote (safe : List Char) (s : List Char) : List Char :=
  s.flatMap (fun c => if alwaysSafeChar c || c ∈ safe then [c] else quoteChar c)

/-- Model of `urllib.quote_plus(s)` with empty `safe`: quote with space kept safe, then
turn spaces into `+`. -/
def quote_plus (s : List Char) : List Char :=
  (pyquote [' '] s).map (fun c => if c = ' ' then '+' else c)

/-- Model of `'&'.join` over the encoded `key=value` items. -/
def joinAmp : List (List Char) → List Char
  | [] => []
  | [x] => x
  | x :: y :: t => x ++ '&' :: joinAmp (y :: t)

/-- Model of `urllib.urlencode` (Python 2) over a sequence of string pairs:
`quote_plus(k) + '=' + quote_plus(v)` joined by `&`. -/
def urlencode (params : List (List Char × List Char)) : List Char :=
  joinAmp (params.map (fun p => quote_plus p.1 ++ '=' :: quote_plus p.2))

/-- The function `key_uri(key, issuer, accountname, digits, step)` from src/uri.py:
`'otpauth://totp/{}:{}?{}'.format(quote(issuer), quote(accountname),
urlencode(params))` with params `secret`, `issuer`, `algorithm`, `digits`,
`period`.  The params dict is iterated in source order here; the extraction
below looks the `secret` parameter up by name, so the order is immaterial.
Integer `digits`/`step` are rendered in decimal by `str()`. -/
def key_uri (key : List Nat) (issuer accountname : List Char) (digits step : Nat) :
    List Char :=
  "otpauth://totp/".data ++ pyquote ['/'] issuer ++ ':' :: pyquote ['/'] accountname ++
    '?' :: urlencode
      [("secret".data, b32encode key),
       ("issuer".data, issuer),
       ("algorithm".data, "SHA1".data),
       ("digits".data, Nat.toDigits 10 digits),
       ("period".data, Nat.toDigits 10 step)]

/-! ### Extraction of the `secret` query parameter (the checking side of the
URI round-trip property) -/

/-- The suffix after the first occurrence of `sep` (empty if none). -/
def afterChar (sep : Char) : List Char → List Char
  | [] => []
  | c :: rest => if c = sep then rest else afterChar sep rest

/-- Split on a separator character (like Python `str.split(sep)`). -/
def splitOnChar (sep : Char) : List Char → List (List Char)
  | [] => [[]]
  | c :: rest =>
    if c = sep then [] :: splitOnChar sep rest
    else
      match splitOnChar sep rest with
      | [] => [[c]]
      | h :: t => (c :: h) :: t

/-- Hexadecimal digit value of a character. -/
def hexVal (c : Char) : Option Nat :=
  if '0' ≤ c ∧ c ≤ '9' then some (c.toNat - 48)
  else if 'A' ≤ c ∧ c ≤ 'F' then some (c.toNat - 55)
  else if 'a' ≤ c ∧ c ≤ 'f' then some (c.toNat - 87)
  else none

/-- Model of `urllib.unquote_plus`, fuel-driven for structural recursion:
`+` becomes a space, `%XX` becomes the byte `XX`.  Each step consumes at
least one character, so any fuel at least the input length suffices. -/
def unquote_plusF : Nat → List Char → List Char
  | 0, _ => []
  | _, [] => []
  | fuel + 1, c :: rest =>
    if c = '+' then ' ' :: unquote_plusF fuel rest
    else if c = '%' then
      match rest with
      | a :: b :: rest2 =>
        match hexVal a, hexVal b with
        | some x, some y => Char.ofNat (16 * x + y) :: unquote_plusF fuel rest2
        | _, _ => c :: unquote_plusF fuel rest
      | _ => c :: unquote_plusF fuel rest
    else c :: unquote_plusF fuel rest

/-- Model of `urllib.unquote_plus`: `+` becomes a space, `%XX` the byte `XX`. -/
def unquote_plus (s : List Char) : List Char := unquote_plusF s.length s

/-- Extract the `secret` query parameter of an `otpauth://` URI and
Base32-decode it: the query string is everything after the first `?`, the
parameters are separated by `&`, and the parameter value is form-url-decoded
before Base32 decoding. -/
def extract_secret (uri : List Char) : Option (List Nat) :=
  ((splitOnChar '&' (afterChar '?' uri)).findSome? (fun p =>
      if p.take 7 = "secret=".data then some (p.drop 7) else none)).map
    (fun v => b32decode (unquote_plus v))

/-- RFC 4226 dynamic truncation exactly as the specification words it:
offset from the last byte's low nibble (`& 0x0F`), the 4 bytes
`digest[offset..offset+3]` read as an unsigned 32-bit big-endian integer,
most significant bit cleared (`0x7FFFFFFF`), reduced modulo `10^digits`. -/
def rfc4226_truncate (digest : List Nat) (digits : Nat) : Nat :=
  let offset := digest.getLast?.getD 0 &&& 0x0F
  let value := beVal ((digest.drop offset).take 4)
  (value &&& 0x7FFFFFFF) % 10 ^ digits

/-! ## Positional-encoding lemmas -/

/-- Little-endian value of a digit list in base `B`. -/
def ofLE (B : Nat) (l : List Nat) : Nat :=
  l.foldr (fun d a => d + B * a) 0

theorem leDigits_length (B k : Nat) : ∀ n, (leDigits B k n).length = k := by
  induction k with
  | zero => intro n; rfl
  | succ k ih => intro n; simp [leDigits, ih]

theorem beDigits_length (B k n : Nat) : (beDigits B k n).length = k := by
  simp [beDigits, leDigits_length]

theorem beBytes_length (k n : Nat) : (beBytes k n).length = k :=
  beDigits_length 256 k n

theorem ofBE_reverse (B : Nat) (l : List Nat) : ofBE B l.reverse = ofLE B l := by
  rw [ofBE, List.foldl_reverse]
  induction l with
  | nil => rfl
  | cons d t ih => simp only [List.foldr_cons, ih, ofLE]; ring

theorem ofBE_eq_ofLE_reverse (B : Nat) (l : List Nat) : ofBE B l = ofLE B l.reverse := by
  have := ofBE_reverse B l.reverse
  rwa [List.reverse_reverse] at this

theorem ofLE_leDigits (B k : Nat) : ∀ n, n < B ^ k → ofLE B (leDigits B k n) = n := by
  induction k with
  | zero =>
      intro n h
      simp [pow_zero] at h
      simp [leDigits, ofLE, h]
  | succ k ih =>
      intro n h
      have hB : 0 < B := by
        rcases Nat.eq_zero_or_pos B with h0 | h0
        · subst h0; simp [Nat.zero_pow] at h
        · exact h0
      have hdiv : n / B < B ^ k := by
        rw [Nat.div_lt_iff_lt_mul hB]
        calc n < B ^ (k + 1) := h
          _ = B ^ k * B := by ring
      simp only [leDigits, ofLE, List.foldr_cons]
      have := ih (n / B) hdiv
      rw [ofLE] at this
      rw [this, Nat.mod_add_div]

theorem ofBE_beDigits (B k n : Nat) (h : n < B ^ k) : ofBE B (beDigits B k n) = n := by
  rw [beDigits, ofBE_reverse]
  exact ofLE_leDigits B k n h

theorem leDigits_ofLE (B : Nat) : ∀ l : List Nat, (∀ x ∈ l, x < B) →
    leDigits B l.length (ofLE B l) = l := by
  intro l
  induction l with
  | nil => intro _; rfl
  | cons d t ih =>
      intro h
      have hd : d < B := h d (by simp)
      have hB : 0 < B := Nat.pos_of_ne_zero (by omega)
      have hmod : (d + B * ofLE B t) % B = d := by
        rw [Nat.add_mul_mod_self_left, Nat.mod_eq_of_lt hd]
      have hdiv : (d + B * ofLE B t) / B = ofLE B t := by
        rw [Nat.add_mul_div_left d _ hB, Nat.div_eq_of_lt hd, Nat.zero_add]
      simp only [List.length_cons, leDigits, ofLE, List.foldr_cons]
      rw [show d + B * List.foldr (fun d a => d + B * a) 0 t = d + B * ofLE B t from rfl,
        hmod, hdiv]
      exact congrArg (d :: ·) (ih (fun x hx => h x (List.mem_cons_of_mem d hx)))

theorem beDigits_ofBE (B : Nat) (l : List Nat) (h : ∀ x ∈ l, x < B) :
    beDigits B l.length (ofBE B l) = l := by
  rw [beDigits, ofBE_eq_ofLE_reverse]
  have hlen : l.length = l.reverse.length := (List.length_reverse l).symm
  rw [hlen, leDigits_ofLE B l.reverse (fun x hx => h x (List.mem_reverse.mp hx)),
    List.reverse_reverse]

theorem leDigits_lt (B k : Nat) (hB : 0 < B) : ∀ n, ∀ x ∈ leDigits B k n, x < B := by
  induction k with
  | zero => intro n x hx; simp [leDigits] at hx
  | succ k ih =>
      intro n x hx
      rcases (List.mem_cons).mp hx with h | h
      · subst h; exact Nat.mod_lt _ hB
      · exact ih (n / B) x h

/-! ## Structural lemmas about the pipeline -/

theorem sha1Out_length (h : Nat × Nat × Nat × Nat × Nat) : (sha1Out h).length = 20 := by
  simp [sha1Out, beBytes_length]

theorem sha1_length (msg : List Nat) : (sha1 msg).length = 20 :=
  sha1Out_length _

theorem hmacSha1_length (key msg : List Nat) : (hmacSha1 key msg).length = 20 := by
  rw [hmacSha1]
  exact sha1_length _

/-- On any 20-byte digest, `truncate` succeeds and computes the dynamically
truncated, masked word reduced mod `10^digits`. -/
theorem truncate_some_of_len20 (digest : List Nat) (h : digest.length = 20) (digits : Nat) :
    truncate digest digits =
      some ((beVal ((digest.drop (digest.getLast?.getD 0 &&& 15)).take 4) &&& 0x7FFFFFFF)
        % 10 ^ digits) := by
  have hne : digest ≠ [] := by
    intro e; rw [e] at h; simp at h
  obtain ⟨b, hb⟩ : ∃ b, digest.getLast? = some b :=
    ⟨digest.getLast hne, List.getLast?_eq_getLast digest hne⟩
  have hoff : b &&& 15 ≤ 15 := Nat.and_le_right
  have hlen4 : ((digest.drop (b &&& 15)).take 4).length = 4 := by
    simp only [List.length_take, List.length_drop, h]
    omega
  rw [truncate, hb]
  simp [hlen4, hb]

/-- Codes produced by `truncate` are below `10^digits`. -/
theorem truncate_lt (digest : List Nat) (digits c : Nat)
    (h : truncate digest digits = some c) : c < 10 ^ digits := by
  rw [truncate] at h
  rcases hl : digest.getLast? with _ | b
  · rw [hl] at h; exact absurd h (by simp)
  · rw [hl] at h
    by_cases h4 : ((digest.drop (b &&& 15)).take 4).length = 4
    · simp only [if_pos h4, Option.some_inj] at h
      rw [← h]
      exact Nat.mod_lt _ (Nat.pos_pow_of_pos digits (by norm_num))
    · simp only [if_neg h4] at h
      exact absurd h (by simp)

/-- Floor-division bounds for `Int.fdiv` with a positive divisor. -/
theorem fdiv_bounds (a : Int) {s : Int} (hs : 0 < s) :
    s * a.fdiv s ≤ a ∧ a < s * (a.fdiv s + 1) := by
  rw [Int.fdiv_eq_ediv a hs.le]
  have h1 := Int.ediv_add_emod a s
  have h2 := Int.emod_nonneg a (by omega : s ≠ 0)
  have h3 := Int.emod_lt_of_pos a hs
  constructor
  · linarith
  · have he : s * (a / s + 1) = s * (a / s) + s := by ring
    rw [he]; linarith

/-! ## Base32 and query-string lemmas -/

theorem ofBE_foldl_acc (B : Nat) :
    ∀ (l : List Nat) (a : Nat),
      l.foldl (fun a d => a * B + d) a = a * B ^ l.length + ofBE B l := by
  intro l
  induction l with
  | nil => intro a; simp [ofBE]
  | cons d t ih =>
      intro a
      rw [List.foldl_cons, ih (a * B + d)]
      have hofbe : ofBE B (d :: t) = d * B ^ t.length + ofBE B t := by
        rw [ofBE, List.foldl_cons]
        have := ih d
        simpa using this
      rw [hofbe, List.length_cons]
      ring

theorem ofBE_append (B : Nat) (l1 l2 : List Nat) :
    ofBE B (l1 ++ l2) = ofBE B l1 * B ^ l2.length + ofBE B l2 := by
  rw [ofBE, List.foldl_append, ofBE_foldl_acc]
  rfl

theorem ofBE_replicate_zero (B m : Nat) : ofBE B (List.replicate m 0) = 0 := by
  induction m with
  | zero => rfl
  | succ m ih =>
      rw [List.replicate_succ, ofBE, List.foldl_cons]
      simpa [ofBE] using ih

theorem ofBE_append_zeros (B : Nat) (l : List Nat) (m : Nat) :
    ofBE B (l ++ List.replicate m 0) = ofBE B l * B ^ m := by
  rw [ofBE_append, ofBE_replicate_zero, List.length_replicate, Nat.add_zero]

theorem ofBE_lt (B : Nat) : ∀ (l : List Nat), (∀ x ∈ l, x < B) →
    ofBE B l < B ^ l.length := by
  intro l
  induction l with
  | nil => intro _; simp [ofBE]
  | cons d t ih =>
      intro h
      have hd : d < B := h d (by simp)
      have ht := ih (fun x hx => h x (List.mem_cons_of_mem d hx))
      have hsingle : ofBE B (d :: t) = d * B ^ t.length + ofBE B t := by
        have := ofBE_append B [d] t
        simpa [ofBE] using this
      rw [hsingle, List.length_cons]
      calc d * B ^ t.length + ofBE B t < d * B ^ t.length + B ^ t.length :=
            Nat.add_lt_add_left ht _
        _ = (d + 1) * B ^ t.length := by ring
        _ ≤ B * B ^ t.length := Nat.mul_le_mul_right _ hd
        _ = B ^ (t.length + 1) := by ring

theorem b32char_mem : ∀ d, d < 32 → b32char d ∈ b32alphabet := by decide

theorem b32charVal_b32char : ∀ d, d < 32 → b32charVal (b32char d) = d := by decide

theorem b32alphabet_props : ∀ c ∈ b32alphabet,
    alwaysSafeChar c = true ∧ c ≠ '=' ∧ c ≠ '&' ∧ c ≠ '%' ∧ c ≠ '+' ∧ c ≠ ' ' := by
  decide

theorem b32Keep_facts (r : Nat) (h1 : 1 ≤ r) (h5 : r ≤ 5) :
    b32KeepChars r ≤ 8 ∧ b32KeepBytes (8 - b32KeepChars r) = r ∧
      5 * (8 - b32KeepChars r) ≤ 8 * (5 - r) := by
  interval_cases r <;> decide

theorem b32KeepChars_le (r : Nat) : b32KeepChars r ≤ 8 := by
  unfold b32KeepChars
  split <;> omega

theorem b32encodeChunk_length (c : List Nat) : (b32encodeChunk c).length = 8 := by
  have := b32KeepChars_le c.length
  rw [b32encodeChunk]
  simp only [List.length_append, List.length_take, List.length_map,
    beDigits_length, List.length_replicate]
  omega

theorem chunksF_cons_step {α : Type} (k f : Nat) (l : List α) (h : l ≠ []) :
    chunksF k (f + 1) l = l.take k :: chunksF k f (l.drop k) := by
  cases l with
  | nil => exact absurd rfl h
  | cons a t => rfl

theorem chunksF_flatten {α : Type} (k : Nat) (hk : 0 < k) :
    ∀ (fuel : Nat) (l : List α), l.length ≤ fuel → (chunksF k fuel l).flatten = l := by
  intro fuel
  induction fuel with
  | zero =>
      intro l h
      have : l = [] := List.length_eq_zero.mp (by omega)
      subst this; rfl
  | succ f ih =>
      intro l h
      cases l with
      | nil => rfl
      | cons a t =>
          have h' : t.length + 1 ≤ f + 1 := by simpa using h
          rw [chunksF_cons_step k f _ (by simp), List.flatten_cons,
            ih _ (by simp only [List.length_drop, List.length_cons]; omega)]
          exact List.take_append_drop k (a :: t)

theorem chunksF_mem {α : Type} (k : Nat) (hk : 0 < k) :
    ∀ (fuel : Nat) (l : List α) (g : List α), g ∈ chunksF k fuel l →
      (∀ x ∈ g, x ∈ l) ∧ g.length ≤ k ∧ g ≠ [] := by
  intro fuel
  induction fuel with
  | zero => intro l g hg; simp [chunksF] at hg
  | succ f ih =>
      intro l g hg
      cases l with
      | nil => simp [chunksF] at hg
      | cons a t =>
          rw [chunksF_cons_step k f _ (by simp)] at hg
          rcases List.mem_cons.mp hg with rfl | hg'
          · refine ⟨fun x hx => List.take_subset _ _ hx, ?_, ?_⟩
            · simp only [List.length_take]; omega
            · intro e
              rcases List.take_eq_nil_iff.mp e with h0 | h0
              · omega
              · exact List.noConfusion h0
          · obtain ⟨hsub, hle, hne⟩ := ih _ g hg'
            exact ⟨fun x hx => List.drop_subset _ _ (hsub x hx), hle, hne⟩

theorem chunksF_flatten_of_len8 :
    ∀ (L : List (List Char)) (fuel : Nat), (∀ g ∈ L, g.length = 8) →
      L.flatten.length ≤ fuel → chunksF 8 fuel L.flatten = L := by
  intro L
  induction L with
  | nil => intro fuel _ _; cases fuel <;> rfl
  | cons g T ih =>
      intro fuel hlen hfuel
      have hg8 : g.length = 8 := hlen g (by simp)
      rw [List.flatten_cons] at hfuel ⊢
      have hlength : (g ++ T.flatten).length = 8 + T.flatten.length := by simp [hg8]
      obtain ⟨f, rfl⟩ : ∃ f, fuel = f + 1 := by
        cases fuel with
        | zero => exfalso; omega
        | succ f => exact ⟨f, rfl⟩
      have hne : g ++ T.flatten ≠ [] := by
        intro e
        rw [e] at hlength
        simp at hlength
        omega
      rw [chunksF_cons_step 8 f _ hne, List.take_left' hg8, List.drop_left' hg8,
        ih f (fun g' hg' => hlen g' (List.mem_cons_of_mem _ hg')) (by omega)]

/-- One 1–5 byte group survives the Base32 encode/decode round trip. -/
theorem b32_chunk_roundtrip (c : List Nat) (hne : c ≠ []) (h5 : c.length ≤ 5)
    (hb : ∀ x ∈ c, x < 256) : b32decodeChunk (b32encodeChunk c) = c := by
  have h1 : 1 ≤ c.length := by
    cases c with
    | nil => exact absurd rfl hne
    | cons a t => simp
  obtain ⟨hk8, hkb, hkle⟩ := b32Keep_facts c.length h1 h5
  set keep := b32KeepChars c.length with hkeepdef
  set padded := c ++ List.replicate (5 - c.length) 0 with hpad
  have hpadlen : padded.length = 5 := by
    rw [hpad]; simp; omega
  have hpadbound : ∀ x ∈ padded, x < 256 := by
    intro x hx
    rw [hpad] at hx
    rcases List.mem_append.mp hx with h | h
    · exact hb x h
    · rw [List.eq_of_mem_replicate h]; norm_num
  set n := ofBE 256 padded with hn
  have hnlt : n < 32 ^ 8 := by
    have := ofBE_lt 256 padded hpadbound
    rw [hpadlen] at this
    calc n < 256 ^ 5 := this
      _ = 32 ^ 8 := by norm_num
  have hdvd : (32 : Nat) ^ (8 - keep) ∣ n := by
    rw [hn, hpad, ofBE_append_zeros]
    have h32 : (32 : Nat) ^ (8 - keep) = 2 ^ (5 * (8 - keep)) := by
      rw [pow_mul]; norm_num
    have h256 : (256 : Nat) ^ (5 - c.length) = 2 ^ (8 * (5 - c.length)) := by
      rw [pow_mul]; norm_num
    rw [h32, h256]
    exact Dvd.dvd.mul_left (pow_dvd_pow 2 hkle) _
  set digits := beDigits 32 8 n with hdig
  have hdlen : digits.length = 8 := beDigits_length 32 8 n
  have hdlt : ∀ x ∈ digits, x < 32 := by
    intro x hx
    rw [hdig, beDigits] at hx
    exact leDigits_lt 32 8 (by norm_num) n x (List.mem_reverse.mp hx)
  have henc : b32encodeChunk c =
      (digits.take keep).map b32char ++ List.replicate (8 - keep) '=' := by
    rw [b32encodeChunk, ← List.map_take]
  have hdecomp : n = ofBE 32 (digits.take keep) * 32 ^ (8 - keep) +
      ofBE 32 (digits.drop keep) := by
    conv_lhs => rw [← ofBE_beDigits 32 8 n hnlt, ← hdig,
      ← List.take_append_drop keep digits]
    rw [ofBE_append, List.length_drop, hdlen]
  have hlow : ofBE 32 (digits.drop keep) < 32 ^ (8 - keep) := by
    have := ofBE_lt 32 (digits.drop keep) (fun x hx => hdlt x (List.drop_subset _ _ hx))
    rwa [List.length_drop, hdlen] at this
  have hzero : ofBE 32 (digits.drop keep) = 0 := by
    have hmod : n % 32 ^ (8 - keep) = ofBE 32 (digits.drop keep) := by
      rw [hdecomp, Nat.add_comm,
        Nat.mul_comm (ofBE 32 (digits.take keep)) (32 ^ (8 - keep)),
        Nat.add_mul_mod_self_left, Nat.mod_eq_of_lt hlow]
    have h0 : n % 32 ^ (8 - keep) = 0 := Nat.mod_eq_zero_of_dvd hdvd
    rw [hmod] at h0
    exact h0
  have hTzeros : ofBE 32 (digits.take keep ++ List.replicate (8 - keep) 0) = n := by
    rw [ofBE_append_zeros, hdecomp, hzero, Nat.add_zero]
  have hbytes : beDigits 256 5 n = padded := by
    have := beDigits_ofBE 256 padded hpadbound
    rw [hpadlen] at this
    rw [hn]
    exact this
  have hfilter : (((digits.take keep).map b32char ++
      List.replicate (8 - keep) '=').filter (fun c => c ≠ '=')) =
      (digits.take keep).map b32char := by
    rw [List.filter_append]
    have hf1 : ((digits.take keep).map b32char).filter (fun c => c ≠ '=') =
        (digits.take keep).map b32char := by
      rw [List.filter_eq_self]
      intro a ha
      obtain ⟨d, hd, rfl⟩ := List.mem_map.mp ha
      have hd32 : d < 32 := hdlt d (List.take_subset _ _ hd)
      have := (b32alphabet_props _ (b32char_mem d hd32)).2.1
      simpa using this
    have hf2 : (List.replicate (8 - keep) '=').filter (fun c => c ≠ '=') = [] := by
      simp
    rw [hf1, hf2, List.append_nil]
  have hfiltlen : ((digits.take keep).map b32char).length = keep := by
    simp only [List.length_map, List.length_take, hdlen]
    omega
  have hvals : ((digits.take keep).map b32char).map b32charVal = digits.take keep := by
    rw [List.map_map]
    have hpt : ∀ d ∈ digits.take keep, (b32charVal ∘ b32char) d = d := by
      intro d hd
      exact b32charVal_b32char d (hdlt d (List.take_subset _ _ hd))
    rw [List.map_congr_left hpt, List.map_id']
  rw [henc]
  simp only [b32decodeChunk]
  rw [hfilter, hfiltlen, hvals, hTzeros, hbytes, hkb, hpad]
  exact List.take_left' rfl

/-- Base32 encoding followed by Base32 decoding is the identity on byte strings. -/
theorem b32_roundtrip (key : List Nat) (hk : ∀ b ∈ key, b < 256) :
    b32decode (b32encode key) = key := by
  rw [b32encode, b32decode]
  have hlen8 : ∀ g ∈ (chunksF 5 key.length key).map b32encodeChunk, g.length = 8 := by
    intro g hg
    obtain ⟨gc, _, rfl⟩ := List.mem_map.mp hg
    exact b32encodeChunk_length gc
  rw [chunksF_flatten_of_len8 _ _ hlen8 le_rfl, List.map_map]
  have hpt : ∀ g ∈ chunksF 5 key.length key,
      (b32decodeChunk ∘ b32encodeChunk) g = g := by
    intro g hg
    obtain ⟨hsub, hle, hne⟩ := chunksF_mem 5 (by norm_num) key.length key g hg
    exact b32_chunk_roundtrip g hne hle (fun x hx => hk x (hsub x hx))
  rw [List.map_congr_left hpt, List.map_id']
  exact chunksF_flatten 5 (by norm_num) key.length key le_rfl

/-- Every character emitted by the Base32 encoder is an alphabet character or
the padding character. -/
theorem b32encodeChunk_mem (c : List Nat) :
    ∀ x ∈ b32encodeChunk c, x ∈ b32alphabet ∨ x = '=' := by
  intro x hx
  rw [b32encodeChunk] at hx
  rcases List.mem_append.mp hx with h | h
  · left
    obtain ⟨d, hd, rfl⟩ := List.mem_map.mp (List.take_subset _ _ h)
    have hd32 : d < 32 :=
      leDigits_lt 32 8 (by norm_num) _ d (List.mem_reverse.mp hd)
    exact b32char_mem d hd32
  · right
    exact List.eq_of_mem_replicate h

theorem b32encode_mem (key : List Nat) :
    ∀ c ∈ b32encode key, c ∈ b32alphabet ∨ c = '=' := by
  intro c hc
  rw [b32encode] at hc
  obtain ⟨l, hl, hcl⟩ := List.mem_flatten.mp hc
  obtain ⟨g, _, rfl⟩ := List.mem_map.mp hl
  exact b32encodeChunk_mem g c hcl

/-- Form-url-encoding a safe, non-space character keeps it. -/
theorem quote_plus_safe_cons (c : Char) (t : List Char)
    (hsafe : alwaysSafeChar c = true) (hspace : c ≠ ' ') :
    quote_plus (c :: t) = c :: quote_plus t := by
  rw [quote_plus, pyquote, List.flatMap_cons, List.map_append, if_pos (by simp [hsafe])]
  simp [if_neg hspace, quote_plus, pyquote]

/-- Form-url-encoding turns a leading padding character into percent notation. -/
theorem quote_plus_eq_cons (t : List Char) :
    quote_plus ('=' :: t) = '%' :: '3' :: 'D' :: quote_plus t := by
  rw [quote_plus, pyquote, List.flatMap_cons, List.map_append,
    if_neg (by decide : ¬((alwaysSafeChar '=' || decide ('=' ∈ [' '])) = true))]
  rw [show (quoteChar '=').map (fun c => if c = ' ' then '+' else c) = ['%', '3', 'D']
    from by decide]
  rfl

/-- Form-url-decoding inverts form-url-encoding on Base32 output strings. -/
theorem unquote_quote_b32 : ∀ (s : List Char),
    (∀ c ∈ s, c ∈ b32alphabet ∨ c = '=') →
    ∀ fuel, (quote_plus s).length ≤ fuel → unquote_plusF fuel (quote_plus s) = s := by
  intro s
  induction s with
  | nil =>
      intro _ fuel _
      rw [show quote_plus [] = [] from rfl]
      cases fuel <;> rfl
  | cons c t ih =>
      intro hcls fuel hfuel
      have iht := ih (fun x hx => hcls x (List.mem_cons_of_mem c hx))
      rcases hcls c (List.mem_cons_self c t) with halpha | rfl
      · obtain ⟨hsafe, _, _, hpct, hplus, hspace⟩ := b32alphabet_props c halpha
        rw [quote_plus_safe_cons c t hsafe hspace] at hfuel ⊢
        cases fuel with
        | zero => simp at hfuel
        | succ f =>
            simp only [unquote_plusF]
            rw [if_neg hplus, if_neg hpct, iht f (by simpa using hfuel)]
      · rw [quote_plus_eq_cons t] at hfuel ⊢
        match fuel, hfuel with
        | f + 1, hfuel =>
          have hstep : unquote_plusF (f + 1) ('%' :: '3' :: 'D' :: quote_plus t) =
              '=' :: unquote_plusF f (quote_plus t) := rfl
          rw [hstep, iht f (by simp at hfuel; omega)]

/-- No character of a form-url-encoded Base32 string is an ampersand. -/
theorem quote_plus_b32_no_amp (s : List Char)
    (hcls : ∀ c ∈ s, c ∈ b32alphabet ∨ c = '=') :
    ∀ x ∈ quote_plus s, x ≠ '&' := by
  intro x hx
  rw [quote_plus] at hx
  obtain ⟨y, hy, rfl⟩ := List.mem_map.mp hx
  obtain ⟨c, hc, hyc⟩ := List.mem_flatMap.mp hy
  rcases hcls c hc with halpha | rfl
  · obtain ⟨hsafe, _, hamp, _, _, hspace⟩ := b32alphabet_props c halpha
    rw [if_pos (by simp [hsafe])] at hyc
    have : y = c := by simpa using hyc
    subst this
    simp [if_neg hspace]
    exact hamp
  · rw [if_neg (by decide : ¬((alwaysSafeChar '=' || decide ('=' ∈ [' '])) = true))] at hyc
    have hmem : y ∈ ['%', '3', 'D'] := by
      rw [show quoteChar '=' = ['%', '3', 'D'] from by decide] at hyc
      exact hyc
    have hy3 : y = '%' ∨ y = '3' ∨ y = 'D' := by simpa using hmem
    rcases hy3 with rfl | rfl | rfl <;> decide

/-- Skipping a separator-free prefix does not change `afterChar`. -/
theorem afterChar_append (sep : Char) (A t : List Char) (h : sep ∉ A) :
    afterChar sep (A ++ t) = afterChar sep t := by
  induction A with
  | nil => rfl
  | cons a A' ih =>
      have ha : ¬a = sep := by
        intro e
        exact h (by rw [e]; exact List.mem_cons_self _ _)
      rw [List.cons_append]
      simp only [afterChar]
      rw [if_neg ha]
      exact ih (fun hm => h (List.mem_cons_of_mem _ hm))

/-- Taking the suffix at the separator itself. -/
theorem afterChar_cons_self (sep : Char) (t : List Char) :
    afterChar sep (sep :: t) = t := by
  simp [afterChar]

/-- Splitting at the first separator after a separator-free prefix. -/
theorem splitOnChar_append (sep : Char) (A B : List Char) (h : sep ∉ A) :
    splitOnChar sep (A ++ sep :: B) = A :: splitOnChar sep B := by
  induction A with
  | nil =>
      rw [List.nil_append]
      simp only [splitOnChar]
      simp
  | cons a A' ih =>
      have ha : ¬a = sep := by
        intro e
        exact h (by rw [e]; exact List.mem_cons_self _ _)
      rw [List.cons_append]
      simp only [splitOnChar]
      rw [if_neg ha, ih (fun hm => h (List.mem_cons_of_mem _ hm))]

/-- Any code produced by `hotp` is below `10^6`. -/
theorem hotp_lt (key : List Nat) (counter : Int) (c : Nat)
    (h : hotp key counter = some c) : c < 10 ^ 6 := by
  rw [hotp] at h
  rcases hd : hmac_digest key counter with _ | dg
  · rw [hd] at h; simp at h
  · rw [hd, Option.some_bind] at h
    exact truncate_lt dg 6 c h

end Totp

namespace Totp

set_option maxRecDepth 10000

/-! ## The claims -/

/-- C1: with the key being the ASCII bytes of `"12345678901234567890"` and the
default SHA-1 hash, `hotp(key, 0) = 755224`, `hotp(key, 1) = 287082` and
`hotp(key, 9) = 520489` — the RFC 4226 Appendix D reference vectors. -/
theorem claim_C1 :
    hotp rfc4226Key 0 = some 755224 ∧ hotp rfc4226Key 1 = some 287082 ∧
      hotp rfc4226Key 9 = some 520489 :=
  ⟨by decide, by decide, by decide⟩

/-- C2: for every 20-byte digest and every positive digit count `d`,
`truncate(digest, d)` equals the RFC 4226 dynamic truncation (offset from the
last byte's low nibble, 4-byte big-endian word, masked with `0x7FFFFFFF`,
reduced mod `10^d`), and the result lies in `[0, 10^d)`. -/
theorem claim_C2 (digest : List Nat) (hlen : digest.length = 20) (d : Nat) (hd : 0 < d) :
    truncate digest d = some (rfc4226_truncate digest d) ∧
      rfc4226_truncate digest d < 10 ^ d := by
  constructor
  · rw [truncate_some_of_len20 digest hlen d]; rfl
  · exact Nat.mod_lt _ (Nat.pos_pow_of_pos d (by norm_num))

theorem claim_C2_witness :
    truncate (List.replicate 20 0) 6 = some (rfc4226_truncate (List.replicate 20 0) 6) ∧
      rfc4226_truncate (List.replicate 20 0) 6 < 10 ^ 6 :=
  claim_C2 (List.replicate 20 0) (by decide) 6 (by decide)

/-- C3: for every integer `current_time`, `epoch` and positive `step`,
`time_steps` computes the mathematical floor of `(current_time - epoch) / step`
(characterised by `step * q ≤ current - epoch < step * (q + 1)`); in
particular `time_steps(59,0,30) = 1`, `time_steps(60,0,30) = 2` and
`time_steps(29,0,30) = 0`. -/
theorem claim_C3 :
    (∀ current epoch step : Int, 0 < step →
      ∃ q, time_steps current epoch step = some q ∧
        step * q ≤ current - epoch ∧ current - epoch < step * (q + 1)) ∧
    time_steps 59 0 30 = some 1 ∧ time_steps 60 0 30 = some 2 ∧
      time_steps 29 0 30 = some 0 := by
  refine ⟨fun c e s hs => ⟨(c - e).fdiv s, ?_,
    (fdiv_bounds (c - e) hs).1, (fdiv_bounds (c - e) hs).2⟩, by decide, by decide, by decide⟩
  rw [time_steps, if_neg (by omega : ¬s = 0)]

theorem claim_C3_witness :
    ∃ q, time_steps 59 0 30 = some q ∧ 30 * q ≤ 59 - 0 ∧ 59 - 0 < 30 * (q + 1) :=
  claim_C3.1 59 0 30 (by norm_num)

/-- C4 counterexample: a negative step is not rejected.  `time_steps(59, 0, -30)`
silently returns the floor-division result `-2` instead of raising an error, so
the claim "for every non-positive step, time_steps fails fast" is false at
`step = -30`. -/
theorem claim_C4_counterexample : time_steps 59 0 (-30) = some (-2) := by decide

/-- C4 (amended): for `step = 0`, `time_steps` — and hence `totp` — raises
`ZeroDivisionError` (modelled as `none`) rather than dividing by zero silently;
a negative step is not rejected and floor division proceeds. -/
theorem claim_C4 (key : List Nat) (current epoch : Int) :
    time_steps current epoch 0 = none ∧ totp key current epoch 0 = none := by
  constructor
  · rw [time_steps]; simp
  · rw [totp, time_steps]; simp

/-- C5 counterexample: `truncate` with `digits = 0` does not fail: it silently
returns a value (`code % 10^0 = code % 1 = 0`), so the claim "for every
non-positive digit count, truncate fails fast" is false at `digits = 0`. -/
theorem claim_C5_counterexample : truncate (List.replicate 20 0) 0 = some 0 := by decide

/-- C5 (amended): `truncate` performs no validation of the digit count: for
`digits = 0` it silently returns 0 (the code reduced modulo `10^0 = 1`) on
every 20-byte digest, rather than failing with an error. -/
theorem claim_C5 (digest : List Nat) (h : digest.length = 20) :
    truncate digest 0 = some 0 := by
  rw [truncate_some_of_len20 digest h 0]
  simp [Nat.mod_one]

theorem claim_C5_witness : truncate (List.replicate 20 1) 0 = some 0 :=
  claim_C5 (List.replicate 20 1) (by decide)

/-- C6: an integer message is encoded as exactly 8 bytes, big-endian, unsigned
(the encoding has length 8 and its big-endian value is the message), and the
HMAC is computed over that encoding; an integer outside `[0, 2^64)` makes
`struct.pack('>Q', ...)` fail (`none`) rather than truncate. -/
theorem claim_C6 (key : List Nat) (m : Int) :
    (0 ≤ m → m < 2 ^ 64 →
      hmac_digest key m = some (hmacSha1 key (beBytes 8 m.toNat)) ∧
      (beBytes 8 m.toNat).length = 8 ∧ beVal (beBytes 8 m.toNat) = m.toNat) ∧
    (m < 0 ∨ 2 ^ 64 ≤ m → hmac_digest key m = none) := by
  constructor
  · intro h0 h64
    refine ⟨by rw [hmac_digest, if_pos ⟨h0, h64⟩], beBytes_length 8 _, ?_⟩
    have hlt : m.toNat < 256 ^ 8 := by
      have h2 : (256 : Nat) ^ 8 = 2 ^ 64 := by norm_num
      omega
    exact ofBE_beDigits 256 8 m.toNat hlt
  · intro h
    rw [hmac_digest, if_neg (by omega : ¬(0 ≤ m ∧ m < 2 ^ 64))]

theorem claim_C6_witness :
    hmac_digest [] 5 = some (hmacSha1 [] (beBytes 8 (5 : Int).toNat)) ∧
      (beBytes 8 (5 : Int).toNat).length = 8 ∧
      beVal (beBytes 8 (5 : Int).toNat) = (5 : Int).toNat :=
  (claim_C6 [] 5).1 (by norm_num) (by norm_num)

/-- C7 counterexample: on a 20-byte digest whose last byte has low nibble 15,
`truncate` reads the 4 bytes at indices 15–18 (here `0x01020304`, giving
909060), not the last 4 bytes at indices 16–19 (here `0x0203040F`, which would
give 752079): the claim "uses exactly the 4 bytes at indices 16–19" is false. -/
theorem claim_C7_counterexample :
    truncate [0, 0, 0, 0, 0, 0, 0, 0, 0, 0, 0, 0, 0, 0, 0, 1, 2, 3, 4, 15] 6 =
        some 909060 ∧
      (beVal [2, 3, 4, 15] &&& 0x7FFFFFFF) % 10 ^ 6 = 752079 ∧
      (909060 : Nat) ≠ 752079 :=
  ⟨by decide, by decide, by decide⟩

/-- C7 (amended): for every key and every counter in `[0, 2^64)`, `hotp`
returns a code without error; and on a 20-byte digest whose last byte has low
nibble 15, truncation stays in bounds and uses exactly the 4 bytes at indices
15–18 (`digest[15:19]`). -/
theorem claim_C7 :
    (∀ (key : List Nat) (counter : Int), 0 ≤ counter → counter < 2 ^ 64 →
      ∃ c, hotp key counter = some c) ∧
    (∀ (digest : List Nat) (d : Nat), digest.length = 20 →
      digest.getLast?.getD 0 &&& 15 = 15 →
      truncate digest d =
        some ((beVal [digest.getD 15 0, digest.getD 16 0, digest.getD 17 0, digest.getD 18 0]
          &&& 0x7FFFFFFF) % 10 ^ d)) := by
  constructor
  · intro key counter h0 h64
    rw [hotp, hmac_digest, if_pos ⟨h0, h64⟩, Option.some_bind]
    exact ⟨_, truncate_some_of_len20 _ (hmacSha1_length _ _) _⟩
  · intro digest d hlen hnib
    rw [truncate_some_of_len20 digest hlen d, hnib]
    have h15 : (15 : Nat) < digest.length := by omega
    have h16 : (16 : Nat) < digest.length := by omega
    have h17 : (17 : Nat) < digest.length := by omega
    have h18 : (18 : Nat) < digest.length := by omega
    have hslice : (digest.drop 15).take 4 =
        [digest.getD 15 0, digest.getD 16 0, digest.getD 17 0, digest.getD 18 0] := by
      rw [List.getD_eq_getElem?_getD, List.getD_eq_getElem?_getD, List.getD_eq_getElem?_getD,
        List.getD_eq_getElem?_getD, List.getElem?_eq_getElem h15, List.getElem?_eq_getElem h16,
        List.getElem?_eq_getElem h17, List.getElem?_eq_getElem h18]
      apply List.ext_getElem
      · simp [hlen]
      · intro i hi1 hi2
        have hi4 : i < 4 := by
          simp only [List.length_take, List.length_drop, hlen] at hi1
          omega
        simp only [List.getElem_take, List.getElem_drop]
        interval_cases i <;> simp
    rw [hslice]

theorem claim_C7_witness : ∃ c, hotp rfc4226Key 0 = some c :=
  claim_C7.1 rfc4226Key 0 (by norm_num) (by norm_num)

/-- C9: `hotp` always truncates with the fixed default of 6 digits (it is
definitionally `truncate (hmac_digest key counter) 6`), so every code it — and
hence `totp` — returns lies in `[0, 10^6)`. -/
theorem claim_C9 :
    (∀ (key : List Nat) (counter : Int),
      hotp key counter = (hmac_digest key counter).bind (fun d => truncate d 6)) ∧
    (∀ (key : List Nat) (counter : Int) (c : Nat),
      hotp key counter = some c → c < 10 ^ 6) ∧
    (∀ (key : List Nat) (current epoch step : Int) (c : Nat),
      totp key current epoch step = some c → c < 10 ^ 6) := by
  refine ⟨fun key counter => rfl, fun key counter c h => hotp_lt key counter c h,
    fun key cu e s c h => ?_⟩
  rw [totp] at h
  rcases ht : time_steps cu e s with _ | t
  · rw [ht] at h; simp at h
  · rw [ht, Option.some_bind] at h
    exact hotp_lt key t c h

theorem claim_C9_witness :
    hotp rfc4226Key 0 = (hmac_digest rfc4226Key 0).bind (fun d => truncate d 6) ∧
      (755224 : Nat) < 10 ^ 6 :=
  ⟨claim_C9.1 rfc4226Key 0, claim_C9.2.1 rfc4226Key 0 755224 (by decide)⟩

/-- C10: whenever `current_time` is earlier than `epoch` by at least one full
(positive) step, `time_steps` yields a negative counter, encoding that counter
as an 8-byte unsigned value fails (`struct.error`), and hence `totp` raises. -/
theorem claim_C10 (key : List Nat) (current epoch step : Int)
    (hstep : 0 < step) (hearly : current - epoch ≤ -step) :
    ∃ q, time_steps current epoch step = some q ∧ q < 0 ∧
      hmac_digest key q = none ∧ totp key current epoch step = none := by
  have hts : time_steps current epoch step = some ((current - epoch).fdiv step) := by
    rw [time_steps, if_neg (by omega : ¬step = 0)]
  have hb := fdiv_bounds (current - epoch) hstep
  have hq : (current - epoch).fdiv step < 0 := by
    by_contra hpos
    push_neg at hpos
    have hnn : 0 ≤ step * ((current - epoch).fdiv step) := mul_nonneg hstep.le hpos
    linarith [hb.1]
  refine ⟨_, hts, hq, ?_, ?_⟩
  · rw [hmac_digest, if_neg (by omega : ¬(0 ≤ (current - epoch).fdiv step ∧
      (current - epoch).fdiv step < 2 ^ 64))]
  · rw [totp, hts, Option.some_bind, hotp, hmac_digest,
      if_neg (by omega : ¬(0 ≤ (current - epoch).fdiv step ∧
        (current - epoch).fdiv step < 2 ^ 64)), Option.none_bind]

theorem claim_C10_witness :
    ∃ q, time_steps 0 30 30 = some q ∧ q < 0 ∧ hmac_digest [] q = none ∧
      totp [] 0 30 30 = none :=
  claim_C10 [] 0 30 30 (by norm_num) (by norm_num)

/-- C8: for every key byte sequence, extracting the `secret` query parameter
from the URI produced by `key_uri` and Base32-decoding it (RFC 4648, padded)
reproduces the original key bytes exactly. -/
theorem claim_C8 (key : List Nat) (hk : ∀ b ∈ key, b < 256) :
    extract_secret (key_uri key "Example".data "alice".data 6 30) = some key := by
  have hcls := b32encode_mem key
  have hafter : afterChar '?' (key_uri key "Example".data "alice".data 6 30) =
      urlencode
        [("secret".data, b32encode key),
         ("issuer".data, "Example".data),
         ("algorithm".data, "SHA1".data),
         ("digits".data, Nat.toDigits 10 6),
         ("period".data, Nat.toDigits 10 30)] := by
    rw [key_uri, afterChar_append '?'
      ("otpauth://totp/".data ++ pyquote ['/'] "Example".data ++
        ':' :: pyquote ['/'] "alice".data) _ (by decide), afterChar_cons_self]
  have hq : urlencode
      [("secret".data, b32encode key),
       ("issuer".data, "Example".data),
       ("algorithm".data, "SHA1".data),
       ("digits".data, Nat.toDigits 10 6),
       ("period".data, Nat.toDigits 10 30)] =
      ("secret".data ++ '=' :: quote_plus (b32encode key)) ++ '&' ::
        joinAmp
          [quote_plus "issuer".data ++ '=' :: quote_plus "Example".data,
           quote_plus "algorithm".data ++ '=' :: quote_plus "SHA1".data,
           quote_plus "digits".data ++ '=' :: quote_plus (Nat.toDigits 10 6),
           quote_plus "period".data ++ '=' :: quote_plus (Nat.toDigits 10 30)] := by
    rw [urlencode]
    simp only [List.map_cons, List.map_nil]
    rw [show quote_plus "secret".data = "secret".data from rfl]
    rfl
  have hamp : '&' ∉ ("secret".data ++ '=' :: quote_plus (b32encode key)) := by
    intro hmem
    rcases List.mem_append.mp hmem with h | h
    · exact absurd h (by decide)
    · rcases List.mem_cons.mp h with h | h
      · exact absurd h (by decide)
      · exact quote_plus_b32_no_amp (b32encode key) hcls '&' h rfl
  have htake : ("secret".data ++ '=' :: quote_plus (b32encode key)).take 7 =
      "secret=".data := by
    have hassoc : "secret".data ++ '=' :: quote_plus (b32encode key) =
        ("secret".data ++ ['=']) ++ quote_plus (b32encode key) := by simp
    rw [hassoc, List.take_left' (by decide)]
    decide
  have hdrop : ("secret".data ++ '=' :: quote_plus (b32encode key)).drop 7 =
      quote_plus (b32encode key) := by
    have hassoc : "secret".data ++ '=' :: quote_plus (b32encode key) =
        ("secret".data ++ ['=']) ++ quote_plus (b32encode key) := by simp
    rw [hassoc, List.drop_left' (by decide)]
  rw [extract_secret, hafter, hq,
    splitOnChar_append '&' _ _ hamp, List.findSome?_cons]
  simp only [htake, hdrop]
  have huq : unquote_plus (quote_plus (b32encode key)) = b32encode key := by
    rw [unquote_plus]
    exact unquote_quote_b32 (b32encode key) hcls _ le_rfl
  simp [huq, b32_roundtrip key hk]

theorem claim_C8_witness :
    extract_secret (key_uri [72, 101, 108, 108, 111] "Example".data "alice".data 6 30) =
      some [72, 101, 108, 108, 111] :=
  claim_C8 [72, 101, 108, 108, 111] (by decide)

end Totp
